import Mathlib

/-!
Verification of the `ConflictLabels` component (`src/lib/src/conflict_labels.rs`)
against its specification. The generic `Merge` type from `crate::merge` is an
external collaborator whose source is not part of this repository slice; its
operations are modelled from the spec (section 6) and are marked as such.
-/

set_option maxHeartbeats 1000000

namespace JJ

variable {α : Type} {β : Type} {κ : Type}

/-- Modelled from the spec: the external Conflict Merge abstraction
(`crate::merge::Merge`, spec section 6), whose source file is missing from this
repository slice. Terms are stored as a flat interleaved sequence: add terms at
even positions and remove terms at odd positions; a well-shaped merge has an odd
number of terms (N add terms and N - 1 remove terms for N sides). -/
structure Merge (α : Type) where
  values : List α
deriving DecidableEq

/-- Modelled from the spec: `is_resolved()` is true iff the merge has exactly
one add term and zero remove terms, i.e. exactly one stored term. -/
def Merge.isResolved (m : Merge α) : Bool :=
  m.values.length == 1

/-- Modelled from the spec: `num_sides()` is the count of add terms, the terms
at even positions of the interleaved sequence. -/
def Merge.numSides (m : Merge α) : Nat :=
  (m.values.length + 1) / 2

/-- Modelled from the spec: `as_slice()` is the flat interleaved term list. -/
def Merge.asSlice (m : Merge α) : List α :=
  m.values

/-- Modelled from the spec: `get_add(index)` is bounds-checked positional access
to the add term at the given index (even interleaved position). -/
def Merge.getAdd (m : Merge α) (i : Nat) : Option α :=
  m.values.get? (2 * i)

/-- Modelled from the spec: `get_remove(index)` is bounds-checked positional
access to the remove term at the given index (odd interleaved position). -/
def Merge.getRemove (m : Merge α) (i : Nat) : Option α :=
  m.values.get? (2 * i + 1)

/-- Modelled from the spec: `map` applies a function to every term. -/
def Merge.map (f : α → β) (m : Merge α) : Merge β :=
  ⟨m.values.map f⟩

/-- Modelled from the spec: `zip(other)` pairs two equal-shaped merges
positionally; a shape mismatch is a caller precondition violation, totalized
here by truncation to the shorter sequence. -/
def Merge.zip (m1 : Merge α) (m2 : Merge β) : Merge (α × β) :=
  ⟨List.zip m1.values m2.values⟩

/-- Modelled from the spec: `unzip()` splits a merge of pairs into two merges of
the same shape, positionally. -/
def Merge.unzip (m : Merge (α × β)) : Merge α × Merge β :=
  (⟨m.values.map Prod.fst⟩, ⟨m.values.map Prod.snd⟩)

/-- Modelled from the spec: `Merge::from_vec` builds a merge from a flat
interleaved term list and requires an odd number of terms; a list of even
length violates that precondition and is a panic-class fault, modelled as
`none`. -/
def Merge.fromVec (l : List α) : Option (Merge α) :=
  if l.length % 2 = 1 then some ⟨l⟩ else none

/-- Splits an interleaved term list into its add terms (even positions) and its
remove terms (odd positions). -/
def deinterleave : List α → List α × List α
  | [] => ([], [])
  | [a] => ([a], [])
  | a :: b :: rest =>
    let p := deinterleave rest
    (a :: p.1, b :: p.2)

/-- Rebuilds an interleaved term list from add terms and remove terms. -/
def interleave : List α → List α → List α
  | [], lr => lr
  | a :: ta, [] => a :: ta
  | a :: ta, r :: tr => a :: r :: interleave ta tr

/-- Modelled from the spec: removes the first element of the list whose key
equals the given key, or `none` when no element matches. -/
def removeFirst (k : α → κ) [DecidableEq κ] (key : κ) : List α → Option (List α)
  | [] => none
  | r :: tr =>
    if k r = key then some tr
    else (removeFirst k key tr).map (fun l => r :: l)

/-- Modelled from the spec: performs one cancellation step, cancelling the first
add term (in order) that has a key-equal remove term against the first such
remove term; `none` when no add/remove pair has equal keys. -/
def cancelOnce (k : α → κ) [DecidableEq κ] : List α → List α → Option (List α × List α)
  | [], _ => none
  | a :: ta, lr =>
    match removeFirst k (k a) lr with
    | some lr2 => some (ta, lr2)
    | none => (cancelOnce k ta lr).map (fun p => (a :: p.1, p.2))

/-- Modelled from the spec: iterates cancellation steps until no add/remove pair
with equal keys remains; the fuel bounds the iteration count (each step removes
one remove term, so the remove count is always sufficient fuel). -/
def simplifyFix (k : α → κ) [DecidableEq κ] : Nat → List α → List α → List α × List α
  | 0, la, lr => (la, lr)
  | fuel + 1, la, lr =>
    match cancelOnce k la lr with
    | none => (la, lr)
    | some p => simplifyFix k fuel p.1 p.2

/-- Modelled from the spec: `simplify_by(key_fn)` cancels matching add/remove
term pairs (equality under the key projection) until no more cancellations
apply; the exact cancellation order is owned by the external merge component
and is modelled here by a deterministic first-match scan. -/
def Merge.simplifyBy (k : α → κ) [DecidableEq κ] (m : Merge α) : Merge α :=
  let p := deinterleave m.values
  let q := simplifyFix k p.2.length p.1 p.2
  ⟨interleave q.1 q.2⟩

/-- Modelled from the spec: `simplify()` cancels matching add/remove term pairs
by term equality, i.e. `simplify_by` with the identity key. -/
def Merge.simplify [DecidableEq α] (m : Merge α) : Merge α :=
  m.simplifyBy (fun a => a)

/-- Add terms of a merge, in positional order. -/
def Merge.adds (m : Merge α) : List α :=
  (deinterleave m.values).1

/-- Remove terms of a merge, in positional order. -/
def Merge.removes (m : Merge α) : List α :=
  (deinterleave m.values).2

/-- Shape invariant of the external merge type: an interleaved term list of odd
length (N add terms and N - 1 remove terms). -/
def Merge.wellShaped (m : Merge α) : Prop :=
  m.values.length % 2 = 1

/-- Optionally contains a set of labels for the terms of a conflict
(`ConflictLabels` in `conflict_labels.rs`); the `Arc` sharing layer carries no
observable state and is dropped from the model. -/
structure ConflictLabels where
  labels : Option (Merge String)
deriving DecidableEq

/-- Create a `ConflictLabels` with no labels (`ConflictLabels::unlabeled`). -/
def ConflictLabels.unlabeled : ConflictLabels :=
  ⟨none⟩

/-- Create a `ConflictLabels` from a `Merge<String>`; if the merge is resolved
or any label is empty, the labels are discarded (`ConflictLabels::new`). -/
def ConflictLabels.new (labels : Merge String) : ConflictLabels :=
  if labels.isResolved || labels.values.any (fun label => decide (label = "")) then
    ConflictLabels.unlabeled
  else
    ⟨some labels⟩

/-- Create a `ConflictLabels` from a `Vec<String>`, with an empty vec meaning no
labels (`ConflictLabels::from_vec`); a non-empty vec is handed directly to
`Merge::from_vec`, whose odd-length precondition violation (a panic) is
modelled as `none`. -/
def ConflictLabels.from_vec (labels : List String) : Option ConflictLabels :=
  if labels.isEmpty then some ConflictLabels.unlabeled
  else (Merge.fromVec labels).map ConflictLabels.new

/-- Returns true if there are labels present (`ConflictLabels::is_present`). -/
def ConflictLabels.is_present (s : ConflictLabels) : Bool :=
  s.labels.isSome

/-- Returns the number of labeled sides, or `none` if unlabeled
(`ConflictLabels::num_sides`). -/
def ConflictLabels.num_sides (s : ConflictLabels) : Option Nat :=
  s.labels.map Merge.numSides

/-- Returns the underlying labels (`ConflictLabels::as_merge`). -/
def ConflictLabels.as_merge (s : ConflictLabels) : Option (Merge String) :=
  s.labels

/-- Returns the underlying labels, consuming the set
(`ConflictLabels::into_merge`); ownership is unobservable in the model. -/
def ConflictLabels.into_merge (s : ConflictLabels) : Option (Merge String) :=
  s.labels

/-- Returns the conflict labels as a slice, empty when there are no labels
(`ConflictLabels::as_slice`). -/
def ConflictLabels.as_slice (s : ConflictLabels) : List String :=
  (s.as_merge.map Merge.asSlice).getD []

/-- Get the label for a side at an index (`ConflictLabels::get_add`). -/
def ConflictLabels.get_add (s : ConflictLabels) (i : Nat) : Option String :=
  s.as_merge.bind (fun m => m.getAdd i)

/-- Get the label for a base at an index (`ConflictLabels::get_remove`). -/
def ConflictLabels.get_remove (s : ConflictLabels) (i : Nat) : Option String :=
  s.as_merge.bind (fun m => m.getRemove i)

/-- Simplify a merge with the same number of sides while preserving the
conflict labels corresponding to each side (`ConflictLabels::simplify_with`):
the labelled branch zips the label merge with the value merge, cancels with a
key projecting only the value component, unzips, and renormalizes the labels
through `new`; the unlabelled branch simplifies the value merge alone. -/
def ConflictLabels.simplify_with {T : Type} [DecidableEq T] (s : ConflictLabels)
    (m : Merge T) : ConflictLabels × Merge T :=
  match s.as_merge with
  | some labels =>
    let p := ((labels.zip m).simplifyBy (fun q => q.2)).unzip
    (ConflictLabels.new p.1, p.2)
  | none => (ConflictLabels.unlabeled, m.simplify)

/-- Restatement of the label-preserving simplification pipeline in the words of
the spec (section 4.1, step 2), for comparison with
`ConflictLabels.simplify_with`: zip the label merge with the value merge
positionally, run the cancellation with a key that looks only at the value
component of each pair, split the result back positionally, and re-normalize
the recovered label merge through `new`. -/
def simplifyWithSpec {T : Type} [DecidableEq T] (labels : Merge String)
    (m : Merge T) : ConflictLabels × Merge T :=
  let zipped := labels.zip m
  let simplified := zipped.simplifyBy (fun q => q.2)
  let p := simplified.unzip
  (ConflictLabels.new p.1, p.2)

/-- Conversion `From<Merge<String>>` for `ConflictLabels` (delegates to
`new`). -/
def ConflictLabels.fromMerge (m : Merge String) : ConflictLabels :=
  ConflictLabels.new m

/-- Conversion `From<Merge<&str>>` for `ConflictLabels`: converts each borrowed
label to an owned label (the identity in this model) and delegates to `new`. -/
def ConflictLabels.fromBorrowedMerge (m : Merge String) : ConflictLabels :=
  ConflictLabels.new (m.map (fun l => l))

/-- Conversion `From<Option<T>>` for `ConflictLabels` at `T = Merge<String>`:
absence collapses to `unlabeled`, otherwise delegates to the inner
conversion. -/
def ConflictLabels.fromOptionMerge (o : Option (Merge String)) : ConflictLabels :=
  o.elim ConflictLabels.unlabeled ConflictLabels.fromMerge

/-- Invariants I1 and I2 of the spec: a present label set wraps a merge that is
not resolved (it has more than one side) and contains no empty label. -/
def ConflictLabels.invariant (s : ConflictLabels) : Prop :=
  ∀ m : Merge String, s.labels = some m →
    m.isResolved = false ∧ 1 < m.numSides ∧ ∀ l ∈ m.values, l ≠ ""

theorem deinterleave_lengths :
    ∀ l : List α,
      (deinterleave l).1.length = (l.length + 1) / 2 ∧
        (deinterleave l).2.length = l.length / 2
  | [] => by simp [deinterleave]
  | [a] => by simp [deinterleave]
  | a :: b :: rest => by
    have ih := deinterleave_lengths rest
    simp only [deinterleave, List.length_cons]
    omega

theorem deinterleave_fst_get? :
    ∀ (l : List α) (i : Nat), (deinterleave l).1.get? i = l.get? (2 * i)
  | [], i => by simp [deinterleave]
  | [a], i => by cases i <;> simp [deinterleave, Nat.mul_succ]
  | a :: b :: rest, 0 => by simp [deinterleave]
  | a :: b :: rest, i + 1 => by
    have ih := deinterleave_fst_get? rest i
    simp [deinterleave, Nat.mul_succ] at ih ⊢
    exact ih

theorem deinterleave_snd_get? :
    ∀ (l : List α) (i : Nat), (deinterleave l).2.get? i = l.get? (2 * i + 1)
  | [], i => by simp [deinterleave]
  | [a], i => by cases i <;> simp [deinterleave]
  | a :: b :: rest, 0 => by simp [deinterleave]
  | a :: b :: rest, i + 1 => by
    have ih := deinterleave_snd_get? rest i
    simp [deinterleave, Nat.mul_succ] at ih ⊢
    exact ih

theorem interleave_length :
    ∀ la lr : List α, (interleave la lr).length = la.length + lr.length
  | [], lr => by simp [interleave]
  | a :: ta, [] => by simp [interleave]
  | a :: ta, r :: tr => by
    have ih := interleave_length ta tr
    simp only [interleave, List.length_cons, ih]
    omega

theorem removeFirst_length (k : α → κ) [DecidableEq κ] (key : κ) :
    ∀ l l2 : List α, removeFirst k key l = some l2 → l2.length + 1 = l.length := by
  intro l
  induction l with
  | nil => intro l2 h; simp [removeFirst] at h
  | cons r tr ih =>
    intro l2 h
    simp only [removeFirst] at h
    by_cases hk : k r = key
    · simp [hk] at h
      subst h
      simp
    · simp only [hk, if_false, Option.map_eq_some'] at h
      obtain ⟨l3, h3, hl⟩ := h
      subst hl
      have := ih l3 h3
      simp
      omega

theorem cancelOnce_lengths (k : α → κ) [DecidableEq κ] :
    ∀ la lr p, cancelOnce k la lr = some p →
      p.1.length + 1 = la.length ∧ p.2.length + 1 = lr.length := by
  intro la
  induction la with
  | nil => intro lr p h; simp [cancelOnce] at h
  | cons a ta ih =>
    intro lr p h
    simp only [cancelOnce] at h
    cases hrf : removeFirst k (k a) lr with
    | some lr2 =>
      rw [hrf] at h
      simp at h
      subst h
      have := removeFirst_length k (k a) lr lr2 hrf
      simp
      omega
    | none =>
      rw [hrf] at h
      simp only [Option.map_eq_some'] at h
      obtain ⟨q, hq, hp⟩ := h
      subst hp
      have := ih lr q hq
      simp
      omega

theorem simplifyFix_lengths (k : α → κ) [DecidableEq κ] :
    ∀ (fuel : Nat) (la lr : List α),
      ∃ d, la.length = (simplifyFix k fuel la lr).1.length + d ∧
        lr.length = (simplifyFix k fuel la lr).2.length + d := by
  intro fuel
  induction fuel with
  | zero => intro la lr; exact ⟨0, by simp [simplifyFix]⟩
  | succ n ih =>
    intro la lr
    cases hc : cancelOnce k la lr with
    | none => exact ⟨0, by simp [simplifyFix, hc]⟩
    | some p =>
      obtain ⟨d, hd1, hd2⟩ := ih p.1 p.2
      have := cancelOnce_lengths k la lr p hc
      refine ⟨d + 1, ?_, ?_⟩ <;> simp [simplifyFix, hc] <;> omega

theorem simplifyBy_parity (k : α → κ) [DecidableEq κ] (m : Merge α) :
    (m.simplifyBy k).values.length % 2 = m.values.length % 2 := by
  simp only [Merge.simplifyBy]
  have hd := deinterleave_lengths m.values
  obtain ⟨d, hd1, hd2⟩ :=
    simplifyFix_lengths k (deinterleave m.values).2.length
      (deinterleave m.values).1 (deinterleave m.values).2
  rw [interleave_length]
  omega

theorem new_invariant (m : JJ.Merge String) (h : m.wellShaped) :
    (ConflictLabels.new m).invariant := by
  intro m2 hm2
  simp only [ConflictLabels.new] at hm2
  by_cases hc :
      (m.isResolved || m.values.any (fun label => decide (label = ""))) = true
  · simp [hc, ConflictLabels.unlabeled] at hm2
  · simp only [hc, if_false] at hm2
    injection hm2 with hm2
    subst hm2
    simp only [Bool.or_eq_true, not_or, Bool.not_eq_true] at hc
    obtain ⟨hres, hemp⟩ := hc
    refine ⟨hres, ?_, ?_⟩
    · simp only [Merge.isResolved] at hres
      have hne1 : m.values.length ≠ 1 := by simpa using hres
      simp only [Merge.wellShaped] at h
      simp only [Merge.numSides]
      omega
    · intro l hl hcontra
      subst hcontra
      have : m.values.any (fun label => decide (label = "")) = true := by
        simp only [List.any_eq_true]
        exact ⟨"", hl, by simp⟩
      simp [this] at hemp

theorem unlabeled_invariant : ConflictLabels.unlabeled.invariant := by
  intro m h
  simp [ConflictLabels.unlabeled] at h

/-- C2: `new(m)` returns `unlabeled()` iff `m` is resolved or some label in `m`
is the empty string, and otherwise returns a present set whose underlying label
merge equals `m`. -/
theorem new_characterization (m : Merge String) :
    (ConflictLabels.new m = ConflictLabels.unlabeled ↔
      (m.isResolved = true ∨ ∃ l ∈ m.values, l = "")) ∧
    (¬(m.isResolved = true ∨ ∃ l ∈ m.values, l = "") →
      (ConflictLabels.new m).labels = some m) := by
  have hc : (m.isResolved || m.values.any fun label => decide (label = "")) = true ↔
      (m.isResolved = true ∨ ∃ l ∈ m.values, l = "") := by
    simp [List.any_eq_true]
  by_cases h : m.isResolved = true ∨ ∃ l ∈ m.values, l = ""
  · have ht := hc.mpr h
    constructor
    · simp only [ConflictLabels.new]
      rw [if_pos ht]
      exact iff_of_true rfl h
    · intro h2
      exact absurd h h2
  · have hf : (m.isResolved || m.values.any fun label => decide (label = "")) = false := by
      rw [Bool.eq_false_iff]
      intro ht
      exact h (hc.mp ht)
    constructor
    · simp only [ConflictLabels.new, hf, Bool.false_eq_true, if_false]
      constructor
      · intro he
        simp [ConflictLabels.unlabeled] at he
      · intro hh
        exact absurd hh h
    · intro _
      simp [ConflictLabels.new, hf]

theorem new_characterization_witness :
    ¬((⟨["l", "b", "r"]⟩ : Merge String).isResolved = true ∨
        ∃ l ∈ (⟨["l", "b", "r"]⟩ : Merge String).values, l = "") ∧
      (ConflictLabels.new ⟨["l", "b", "r"]⟩).labels = some ⟨["l", "b", "r"]⟩ :=
  ⟨by decide, (new_characterization ⟨["l", "b", "r"]⟩).2 (by decide)⟩

/-- C5: on an unlabeled set, `simplify_with` keeps the label component absent
and simplifies the value merge exactly as `simplify()` alone would produce. -/
theorem simplify_with_unlabeled_spec {T : Type} [DecidableEq T]
    (s : ConflictLabels) (m : Merge T) (h : s.labels = none) :
    s.simplify_with m = (ConflictLabels.unlabeled, m.simplify) := by
  obtain ⟨o⟩ := s
  have ho : o = none := h
  subst ho
  rfl

theorem simplify_with_unlabeled_spec_witness :
    ConflictLabels.unlabeled.labels = none ∧
      ConflictLabels.unlabeled.simplify_with (⟨[1, 2, 1]⟩ : Merge Nat) =
        (ConflictLabels.unlabeled, (⟨[1, 2, 1]⟩ : Merge Nat).simplify) :=
  ⟨rfl, simplify_with_unlabeled_spec ConflictLabels.unlabeled ⟨[1, 2, 1]⟩ rfl⟩

/-- C6: `from_vec([])` equals `unlabeled()`, and on every non-empty list
`from_vec` delegates to the normalizing constructor `new` applied to
`Merge::from_vec` of the list. -/
theorem from_vec_delegation :
    ConflictLabels.from_vec [] = some ConflictLabels.unlabeled ∧
      ∀ l : List String, l ≠ [] →
        ConflictLabels.from_vec l = (Merge.fromVec l).map ConflictLabels.new := by
  refine ⟨rfl, ?_⟩
  intro l hl
  cases l with
  | nil => exact absurd rfl hl
  | cons a t => rfl

theorem from_vec_delegation_witness :
    ConflictLabels.from_vec ["x"] = (Merge.fromVec ["x"]).map ConflictLabels.new :=
  from_vec_delegation.2 ["x"] (by decide)

/-- C8: `is_present()` is false iff `as_merge()` is absent iff `num_sides()` is
absent. -/
theorem present_iff_accessors (s : ConflictLabels) :
    (s.is_present = false ↔ s.as_merge = none) ∧
      (s.as_merge = none ↔ s.num_sides = none) := by
  obtain ⟨o⟩ := s
  cases o <;>
    simp [ConflictLabels.is_present, ConflictLabels.as_merge,
      ConflictLabels.num_sides]

theorem present_iff_accessors_witness :
    (ConflictLabels.unlabeled.is_present = false ↔
        ConflictLabels.unlabeled.as_merge = none) ∧
      (ConflictLabels.unlabeled.as_merge = none ↔
        ConflictLabels.unlabeled.num_sides = none) :=
  present_iff_accessors ConflictLabels.unlabeled

/-- C9: equality on `ConflictLabels` is an equivalence relation, two values are
equal iff both are absent or both are present with identical underlying label
merges, and in particular all unlabeled instances are equal. -/
theorem eq_equivalence_structural :
    (∀ s : ConflictLabels, s = s) ∧
    (∀ s t : ConflictLabels, s = t → t = s) ∧
    (∀ s t u : ConflictLabels, s = t → t = u → s = u) ∧
    (∀ s t : ConflictLabels, s = t ↔
      ((s.labels = none ∧ t.labels = none) ∨
        ∃ m : Merge String, s.labels = some m ∧ t.labels = some m)) := by
  refine ⟨fun s => rfl, fun s t h => h.symm, fun s t u h1 h2 => h1.trans h2, ?_⟩
  intro s t
  obtain ⟨o1⟩ := s
  obtain ⟨o2⟩ := t
  constructor
  · intro h
    injection h with h
    subst h
    cases o1 <;> simp
  · intro h
    rcases h with ⟨h1, h2⟩ | ⟨m, h1, h2⟩
    · have e1 : o1 = none := h1
      have e2 : o2 = none := h2
      subst e1
      subst e2
      rfl
    · have e1 : o1 = some m := h1
      have e2 : o2 = some m := h2
      subst e1
      subst e2
      rfl

theorem eq_equivalence_structural_witness :
    ConflictLabels.unlabeled = ConflictLabels.unlabeled :=
  eq_equivalence_structural.1 ConflictLabels.unlabeled

/-- C1: on a present label set, `simplify_with` with a value merge of the same
number of sides equals the spec's pipeline: zip the label merge with the value
merge positionally, cancel by a key projecting only the value component, unzip
positionally, re-normalize the recovered labels through `new`, and return the
pair. -/
theorem simplify_with_present_pipeline {T : Type} [DecidableEq T]
    (s : ConflictLabels) (L : Merge String) (m : Merge T)
    (hL : s.labels = some L) (_hsides : L.numSides = m.numSides) :
    s.simplify_with m = simplifyWithSpec L m := by
  obtain ⟨o⟩ := s
  have ho : o = some L := hL
  subst ho
  rfl

theorem simplify_with_present_pipeline_witness :
    (⟨some ⟨["left", "base", "right"]⟩⟩ : ConflictLabels).labels =
        some ⟨["left", "base", "right"]⟩ ∧
      (⟨some ⟨["left", "base", "right"]⟩⟩ : ConflictLabels).simplify_with
          (⟨[1, 2, 1]⟩ : Merge Nat) =
        simplifyWithSpec ⟨["left", "base", "right"]⟩ ⟨[1, 2, 1]⟩ :=
  ⟨rfl, simplify_with_present_pipeline ⟨some ⟨["left", "base", "right"]⟩⟩
    ⟨["left", "base", "right"]⟩ ⟨[1, 2, 1]⟩ rfl (by decide)⟩

/-- C7: `get_add` (resp. `get_remove`) returns `none` iff the set is unlabeled
or the index is out of range of the add (resp. remove) terms, and on a present
set it returns exactly the label at that add (resp. remove) position. -/
theorem get_label_spec (s : ConflictLabels) (i : Nat) :
    (s.get_add i = none ↔
      (s.is_present = false ∨
        ∃ m : Merge String, s.labels = some m ∧ m.adds.length ≤ i)) ∧
    (s.get_remove i = none ↔
      (s.is_present = false ∨
        ∃ m : Merge String, s.labels = some m ∧ m.removes.length ≤ i)) ∧
    (∀ m : Merge String, s.labels = some m →
      s.get_add i = m.adds.get? i ∧ s.get_remove i = m.removes.get? i) := by
  obtain ⟨o⟩ := s
  cases o with
  | none =>
    refine ⟨?_, ?_, ?_⟩
    · simp [ConflictLabels.get_add, ConflictLabels.as_merge,
        ConflictLabels.is_present]
    · simp [ConflictLabels.get_remove, ConflictLabels.as_merge,
        ConflictLabels.is_present]
    · intro m hm
      simp at hm
  | some m =>
    have hadd : ConflictLabels.get_add ⟨some m⟩ i = m.values.get? (2 * i) := rfl
    have hrem : ConflictLabels.get_remove ⟨some m⟩ i =
        m.values.get? (2 * i + 1) := rfl
    have hal : m.adds.length = (m.values.length + 1) / 2 :=
      (deinterleave_lengths m.values).1
    have hrl : m.removes.length = m.values.length / 2 :=
      (deinterleave_lengths m.values).2
    refine ⟨?_, ?_, ?_⟩
    · rw [hadd, List.get?_eq_none]
      constructor
      · intro hle
        exact Or.inr ⟨m, rfl, by omega⟩
      · rintro (hfalse | ⟨m2, hm2, hle⟩)
        · simp [ConflictLabels.is_present] at hfalse
        · have : m2 = m := by
            have : some m = some m2 := hm2
            injection this with h
            exact h.symm
          subst this
          omega
    · rw [hrem, List.get?_eq_none]
      constructor
      · intro hle
        exact Or.inr ⟨m, rfl, by omega⟩
      · rintro (hfalse | ⟨m2, hm2, hle⟩)
        · simp [ConflictLabels.is_present] at hfalse
        · have : m2 = m := by
            have : some m = some m2 := hm2
            injection this with h
            exact h.symm
          subst this
          omega
    · intro m2 hm2
      have : m2 = m := by
        have : some m = some m2 := hm2
        injection this with h
        exact h.symm
      subst this
      exact ⟨by rw [hadd, Merge.adds, deinterleave_fst_get?],
        by rw [hrem, Merge.removes, deinterleave_snd_get?]⟩

theorem get_label_spec_witness :
    (⟨some ⟨["l", "b", "r"]⟩⟩ : ConflictLabels).get_add 0 =
        (⟨["l", "b", "r"]⟩ : Merge String).adds.get? 0 ∧
      (⟨some ⟨["l", "b", "r"]⟩⟩ : ConflictLabels).get_remove 0 =
        (⟨["l", "b", "r"]⟩ : Merge String).removes.get? 0 :=
  (get_label_spec ⟨some ⟨["l", "b", "r"]⟩⟩ 0).2.2 ⟨["l", "b", "r"]⟩ rfl

/-- C10: `from_vec` hands any non-empty list directly to `Merge::from_vec`; it
succeeds exactly on the empty list and on lists of odd length, an even-length
non-empty list being a panic-class precondition violation (modelled as
`none`); a list of length 2k + 1 yields a merge of k + 1 sides before
normalization. -/
theorem from_vec_totality (l : List String) :
    (l ≠ [] → ConflictLabels.from_vec l = (Merge.fromVec l).map ConflictLabels.new) ∧
    ((ConflictLabels.from_vec l).isSome = true ↔ (l = [] ∨ l.length % 2 = 1)) ∧
    (∀ k : Nat, l.length = 2 * k + 1 →
      ∃ m : Merge String, Merge.fromVec l = some m ∧ m.numSides = k + 1) := by
  refine ⟨?_, ?_, ?_⟩
  · intro hl
    cases l with
    | nil => exact absurd rfl hl
    | cons a t => rfl
  · cases l with
    | nil => simp [ConflictLabels.from_vec]
    | cons a t =>
      have hstep : ConflictLabels.from_vec (a :: t) =
          (Merge.fromVec (a :: t)).map ConflictLabels.new := rfl
      rw [hstep]
      by_cases hp : (a :: t).length % 2 = 1
      · simp [Merge.fromVec, hp]
      · simp [Merge.fromVec, hp]
  · intro k hk
    refine ⟨⟨l⟩, ?_, ?_⟩
    · simp only [Merge.fromVec]
      rw [if_pos (by omega)]
    · simp only [Merge.numSides]
      omega

theorem from_vec_totality_witness :
    ConflictLabels.from_vec ["x"] = (Merge.fromVec ["x"]).map ConflictLabels.new ∧
      ∃ m : Merge String, Merge.fromVec ["x"] = some m ∧ m.numSides = 0 + 1 :=
  ⟨(from_vec_totality ["x"]).1 (by decide), (from_vec_totality ["x"]).2.2 0 (by decide)⟩

/-- C4 counterexample: the singleton list has no empty entries and is
non-empty, yet `from_vec` collapses it to `unlabeled()` (a resolved label merge
is never labeled), so the returned set is not present. -/
theorem from_vec_singleton_not_present :
    ConflictLabels.from_vec ["a"] = some ConflictLabels.unlabeled ∧
      ConflictLabels.unlabeled.is_present = false := by
  exact ⟨by decide, rfl⟩

/-- C4 amended: for every label list of odd length at least 3 with no
empty-string entries, `from_vec` succeeds with a present set whose `as_slice`
equals the input list and whose `num_sides` is the side count implied by the
list length (2k + 1 terms give k + 1 sides). -/
theorem from_vec_odd_spec (l : List String) (hodd : l.length % 2 = 1)
    (h3 : 3 ≤ l.length) (hne : ∀ x ∈ l, x ≠ "") :
    ∃ c : ConflictLabels, ConflictLabels.from_vec l = some c ∧
      c.is_present = true ∧ c.as_slice = l ∧
      c.num_sides = some ((l.length + 1) / 2) := by
  have hcond : ((⟨l⟩ : Merge String).isResolved ||
      (⟨l⟩ : Merge String).values.any fun label => decide (label = "")) = false := by
    simp only [Bool.or_eq_false_iff]
    constructor
    · have : l.length ≠ 1 := by omega
      simp [Merge.isResolved, this]
    · simp only [List.any_eq_false, decide_eq_true_eq]
      intro x hx
      exact hne x hx
  have hnew : ConflictLabels.new ⟨l⟩ = ⟨some ⟨l⟩⟩ := by
    simp only [ConflictLabels.new]
    rw [if_neg (by simp [hcond])]
  have hfv : ConflictLabels.from_vec l = some (ConflictLabels.new ⟨l⟩) := by
    cases l with
    | nil => simp at h3
    | cons a t =>
      have hstep : ConflictLabels.from_vec (a :: t) =
          (Merge.fromVec (a :: t)).map ConflictLabels.new := rfl
      rw [hstep]
      simp only [Merge.fromVec]
      rw [if_pos hodd]
      rfl
  refine ⟨⟨some ⟨l⟩⟩, ?_, rfl, rfl, rfl⟩
  rw [hfv, hnew]

theorem from_vec_odd_spec_witness :
    (["left", "base", "right"] : List String).length % 2 = 1 ∧
      ∃ c : ConflictLabels,
        ConflictLabels.from_vec ["left", "base", "right"] = some c ∧
        c.is_present = true ∧ c.as_slice = ["left", "base", "right"] ∧
        c.num_sides =
          some (((["left", "base", "right"] : List String).length + 1) / 2) :=
  ⟨by decide, from_vec_odd_spec ["left", "base", "right"]
    (by decide) (by decide) (by decide)⟩

/-- C3: invariants I1 and I2 hold for every `ConflictLabels` value produced by
a public construction path — `unlabeled`, `new`, `from_vec`, the `From`
conversions, and the label set returned by `simplify_with` — given the shape
invariant of the external merge type on the inputs: a present set wraps a
non-resolved label merge with more than one side and no empty label. -/
theorem construction_invariant :
    ConflictLabels.unlabeled.invariant ∧
    (∀ m : Merge String, m.wellShaped → (ConflictLabels.new m).invariant) ∧
    (∀ (l : List String) (c : ConflictLabels),
      ConflictLabels.from_vec l = some c → c.invariant) ∧
    (∀ m : Merge String, m.wellShaped → (ConflictLabels.fromMerge m).invariant) ∧
    (∀ m : Merge String, m.wellShaped →
      (ConflictLabels.fromBorrowedMerge m).invariant) ∧
    (∀ o : Option (Merge String), (∀ m ∈ o, m.wellShaped) →
      (ConflictLabels.fromOptionMerge o).invariant) ∧
    (∀ (T : Type) [DecidableEq T] (s : ConflictLabels) (m : Merge T),
      (∀ L : Merge String, s.labels = some L →
        L.wellShaped ∧ m.wellShaped ∧ L.numSides = m.numSides) →
      (s.simplify_with m).1.invariant) := by
  refine ⟨unlabeled_invariant, new_invariant, ?_, new_invariant, ?_, ?_, ?_⟩
  · intro l c hc
    cases l with
    | nil =>
      have : some ConflictLabels.unlabeled = some c := hc
      injection this with h
      subst h
      exact unlabeled_invariant
    | cons a t =>
      have hstep : ConflictLabels.from_vec (a :: t) =
          (Merge.fromVec (a :: t)).map ConflictLabels.new := rfl
      rw [hstep] at hc
      simp only [Merge.fromVec] at hc
      by_cases hp : (a :: t).length % 2 = 1
      · rw [if_pos hp] at hc
        simp only [Option.map_some'] at hc
        injection hc with hc
        subst hc
        exact new_invariant _ hp
      · rw [if_neg hp] at hc
        simp at hc
  · intro m hm
    have : (ConflictLabels.fromBorrowedMerge m) = ConflictLabels.new m := by
      simp [ConflictLabels.fromBorrowedMerge, Merge.map]
    rw [this]
    exact new_invariant m hm
  · intro o ho
    cases o with
    | none => exact unlabeled_invariant
    | some m =>
      exact new_invariant m (ho m rfl)
  · intro T _inst s m hyp
    obtain ⟨o⟩ := s
    cases o with
    | none => exact unlabeled_invariant
    | some L =>
      obtain ⟨hLw, hmw, hsides⟩ := hyp L rfl
      have hred : ((⟨some L⟩ : ConflictLabels).simplify_with m).1 =
          ConflictLabels.new (((L.zip m).simplifyBy (fun q => q.2)).unzip).1 := rfl
      rw [hred]
      refine new_invariant _ ?_
      show ((((L.zip m).simplifyBy (fun q => q.2)).values.map Prod.fst).length % 2 = 1)
      have hp := simplifyBy_parity (fun q : String × T => q.2) (L.zip m)
      have hz : (L.zip m).values.length = min L.values.length m.values.length :=
        List.length_zip L.values m.values
      have hlen : L.values.length = m.values.length := by
        simp only [Merge.wellShaped] at hLw hmw
        simp only [Merge.numSides] at hsides
        omega
      simp only [Merge.wellShaped] at hLw
      rw [List.length_map]
      omega

theorem construction_invariant_witness :
    (⟨["l", "b", "r"]⟩ : Merge String).wellShaped ∧
      (ConflictLabels.new ⟨["l", "b", "r"]⟩).invariant :=
  ⟨rfl, construction_invariant.2.1 ⟨["l", "b", "r"]⟩ rfl⟩

end JJ
